import Mathlib

/-!
# Verification of the caption-normalization / keyword-alignment / step-timing core

Shallow embedding of the core pipeline of the `breadchris/recipes` repository:

* `src/lambda/youtube-extractor/extractor.py`
  - `VideoExtractor._dedupe_yt_captions`  (the Caption Deduplicator)
  - `VideoExtractor.parse_captions`       (format guard, Transcript Assembler)
* `src/youtube/generate_recipes.py`
  - `parse_vtt_cues`                      (the Cue Parser)
  - `search_vtt_for_keywords`             (the Keyword Matcher)
  - `predict_step_times`                  (the Step Timer)

Modelling conventions:

* Python strings are modelled as Lean `String`s; every Python string
  operation used by the code (`strip`, `split`, `lower`, `in`, `find`,
  slicing, `len`) is re-implemented below on `List Char` so that all
  definitions are structurally recursive and reduce inside the kernel.
  Inputs in this code base are ASCII, so the ASCII lowering used below
  agrees with Python `str.lower`.
* Timestamps are modelled in integer milliseconds (`Int`).  The WebVTT
  timestamps of the source carry exactly millisecond precision, and all
  float comparisons performed by the Python code (`< 0.15`, `>= 2`,
  `>= 1`, `- 0.001`, `max(..., 0)`) are scale-invariant, so the integer
  millisecond model is exact.
* The third-party libraries used by the code (`webvtt` parsing,
  `snowballstemmer`, `rapidfuzz`) are not part of this repository; they
  are modelled as explicit function parameters (`stem`, `score`,
  `phraseScore`, `fromString`), exactly the pluggable capability
  interface the code uses them through.  All general theorems are proved
  for every instantiation of these parameters.
-/

/-! ## Python string primitives on `List Char` / `String` -/

/-- Number of characters, Python `len(s)` (inputs are ASCII). -/
def pyLen (s : String) : Nat := s.toList.length

/-- Python `str.strip()`: remove leading and trailing whitespace. -/
def pyStrip (s : String) : String :=
  String.mk (((s.toList.dropWhile Char.isWhitespace).reverse.dropWhile Char.isWhitespace).reverse)

/-- ASCII lowering of one character (Python `str.lower` on the ASCII inputs of this code). -/
def lowerChar (c : Char) : Char :=
  if 'A' ≤ c ∧ c ≤ 'Z' then Char.ofNat (c.toNat + 32) else c

/-- Python `s.lower()` (ASCII). -/
def pyLower (s : String) : String := String.mk (s.toList.map lowerChar)

/-- Helper for `splitOnChar`: accumulate the current field (reversed). -/
def splitOnCharAux (sep : Char) : List Char → List Char → List (List Char)
| [], acc => [acc.reverse]
| x :: rest, acc =>
    if x == sep then acc.reverse :: splitOnCharAux sep rest []
    else splitOnCharAux sep rest (x :: acc)

/-- Python `s.split(sep)` for a one-character separator (keeps empty fields). -/
def splitOnChar (sep : Char) (s : String) : List String :=
  (splitOnCharAux sep s.toList []).map String.mk

/-- Helper for `pySplit`: split on whitespace, keeping empty fields. -/
def splitWsAux : List Char → List Char → List (List Char)
| [], acc => [acc.reverse]
| x :: rest, acc =>
    if x.isWhitespace then acc.reverse :: splitWsAux rest []
    else splitWsAux rest (x :: acc)

/-- Python no-argument `s.split()`: split on whitespace runs, dropping empty fields. -/
def pySplit (s : String) : List String :=
  ((splitWsAux s.toList []).filter (fun f => ¬ f.isEmpty)).map String.mk

/-- Does `l` start with `n` (element-wise equality)? -/
def leadsWith [BEq α] : List α → List α → Bool
| [], _ => true
| _ :: _, [] => false
| a :: as, b :: bs => a == b && leadsWith as bs

/-- Is `n` a contiguous sublist of `hay`? -/
def listHasInfix [BEq α] (n : List α) : List α → Bool
| [] => leadsWith n []
| h :: rest => leadsWith n (h :: rest) || listHasInfix n rest

/-- Python `needle in hay` on strings: substring containment. -/
def pyIn (needle hay : String) : Bool := listHasInfix needle.toList hay.toList

/-- Join a list of strings with a separator, Python `sep.join(parts)`. -/
def joinWith (sep : String) : List String → String
| [] => ""
| [s] => s
| s :: rest => s ++ sep ++ joinWith sep rest

/-- First character of a Python string (used only on non-empty strings). -/
def pyFirstChar (s : String) : Char := s.toList.headD ' '

/-! ## The Caption Deduplicator (`VideoExtractor._dedupe_yt_captions`)

A cue as handed over by the `webvtt` library: start/end time in integer
milliseconds, plus the caption text. -/

structure Caption where
  start : Int
  stop : Int
  text : String
deriving DecidableEq, Repr

/-- `extractor.py` lines 343-347: if the new cue starts at or before the pending
cue's end, pull the pending cue's end back to `new.start - 1ms`, floored at 0. -/
def boundaryFix (prev c : Caption) : Caption :=
  if c.start ≤ prev.stop then { prev with stop := max (c.start - 1) 0 } else prev

/-- `extractor.py` lines 348-351: if the (possibly rewritten) cue has
`start >= end`, swap its start and end. -/
def swapFix (c : Caption) : Caption :=
  if c.start ≥ c.stop then { c with start := c.stop, stop := c.start } else c

/-- Outcome of one iteration of the `_dedupe_yt_captions` loop body. -/
inductive DStep
  /-- the cue's stripped text was empty: `continue` (lines 304-306) -/
  | skip : DStep
  /-- the cue was folded into the pending cue: `continue` with the updated
      pending cue (lines 308-316 and 334-341) -/
  | absorb : Caption → DStep
  /-- the pending cue is yielded and the (rewritten) cue becomes pending
      (lines 353-355, `singleword` false) -/
  | emit : Caption → Caption → DStep
  /-- single-word merge: the pending cue is dropped without being yielded and
      the rewritten cue becomes pending (lines 353-355, `singleword` true) -/
  | replace : Caption → DStep
deriving DecidableEq, Repr

/-- One iteration of the loop body of `_dedupe_yt_captions`
(`extractor.py` lines 304-355), for a pending cue `prev` and incoming cue `c0`. -/
def dedupeStep (prev c0 : Caption) : DStep :=
  let ct := pyStrip c0.text
  if pyLen ct == 0 then .skip
  else
    let c1 : Caption := { c0 with text := ct }
    -- lines 309-316: "Skip very short duplicates" (note: the code really
    -- compares start - end, not end - start)
    if decide (c1.start - c1.stop < 150) && pyIn c1.text prev.text then
      .absorb { prev with stop := c1.stop }
    else
      let currentLines := splitOnChar '\n' c1.text
      let lastLines := splitOnChar '\n' prev.text
      if currentLines.headD "" == lastLines.getLastD "" then
        -- lines 323-333: the repeated leading line is removed; a short single
        -- carried word is reattached instead and suppresses emission
        if lastLines.length == 1
            && decide ((splitOnChar ' ' (lastLines.headD "")).length < 2)
            && decide (pyLen (lastLines.headD "") > 2) then
          .replace (swapFix { c1 with
            text := currentLines.headD "" ++ " " ++ joinWith "\n" currentLines.tail })
        else
          .emit (boundaryFix prev c1)
            (swapFix { c1 with text := joinWith "\n" currentLines.tail })
      else
        -- lines 334-341: a trailing fragment of at most two words is appended
        -- to the pending cue
        if decide ((splitOnChar ' ' c1.text).length ≤ 2) then
          let tt := if pyFirstChar c1.text != ' ' then " " ++ c1.text else c1.text
          .absorb { prev with stop := c1.stop, text := prev.text ++ tt }
        else
          .emit (boundaryFix prev c1) (swapFix c1)

/-- The generator loop of `_dedupe_yt_captions` after the first cue became
pending (`extractor.py` lines 299-358). -/
def dedupeYtAux (prev : Caption) : List Caption → List Caption
| [] => [prev]
| c :: rest =>
    match dedupeStep prev c with
    | .skip => dedupeYtAux prev rest
    | .absorb p => dedupeYtAux p rest
    | .emit p q => p :: dedupeYtAux q rest
    | .replace q => dedupeYtAux q rest

/-- `VideoExtractor._dedupe_yt_captions`: the first cue becomes pending; the
final pending cue is emitted at the end. -/
def dedupeYtCaptions : List Caption → List Caption
| [] => []
| c :: rest => dedupeYtAux c rest

/-! ## The Transcript Assembler (`VideoExtractor.parse_captions`, lines 360-403) -/

/-- A timed transcript segment.  `parse_captions` emits times as float seconds;
they are modelled here in the exact integer milliseconds they are computed
from (`_timestamp_to_seconds` is strictly monotone, so all order relations
coincide). -/
structure Segment where
  startTime : Int
  endTime : Int
  text : String
deriving DecidableEq, Repr

/-- `caption.text.replace("\n", " ").strip()` (line 378). -/
def cleanSegText (s : String) : String :=
  pyStrip (String.mk (s.toList.map (fun c => if c == '\n' then ' ' else c)))

/-- The segment list built by `parse_captions` (lines 377-385): one segment per
deduplicated caption, in order. -/
def parseSegments (cues : List Caption) : List Segment :=
  (dedupeYtCaptions cues).map (fun c => ⟨c.start, c.stop, cleanSegText c.text⟩)

/-- The separator chosen from the gap to the previous caption's end
(lines 387-396): `"\n\n"` for a gap of at least 2s, `"\n"` for at least 1s,
otherwise a single space. -/
def gapSep (prevEnd start : Int) : String :=
  if start - prevEnd ≥ 2000 then "\n\n" else if start - prevEnd ≥ 1000 then "\n" else " "

/-- Concatenation of the cleaned caption texts with gap separators
(lines 377-398); `prevEnd = none` for the first caption. -/
def assembleText : Option Int → List Caption → String
| _, [] => ""
| prevEnd, c :: rest =>
    let t := cleanSegText c.text
    (match prevEnd with
     | none => t
     | some pe => gapSep pe c.start ++ t) ++ assembleText (some c.stop) rest

/-- Collapse every run of spaces to a single space:
`" ".join(re.split(" +", result))` (line 401). -/
def collapseSpaces : List Char → List Char
| [] => []
| [c] => [c]
| ' ' :: ' ' :: rest => collapseSpaces (' ' :: rest)
| c :: rest => c :: collapseSpaces rest

/-- The body of `parse_captions` after the format guard: plain text and
segment list from the deduplicated captions. -/
def parseCaptionsBody (cues : List Caption) : String × List Segment :=
  (String.mk (collapseSpaces (assembleText none (dedupeYtCaptions cues)).toList),
   parseSegments cues)

/-- `VideoExtractor.parse_captions` (lines 360-403).  The third-party
`webvtt.from_string` parser is passed in as the capability `fromString`;
the `ValueError` raised for a non-"vtt" extension is modelled as
`Except.error` carrying the formatted message. -/
def parse_captions (fromString : String → List Caption) (ext content : String) :
    Except String (String × List Segment) :=
  if ext ≠ "vtt" then Except.error ("Unsupported caption format: " ++ ext)
  else Except.ok (parseCaptionsBody (fromString content))

/-! ## The Cue Parser (`parse_vtt_cues`, `generate_recipes.py` lines 67-110)

The snowball stemmer used by `normalize_text` is third-party; it enters as
the capability parameter `stem : String → String`, applied word by word
exactly as `stemmer.stemWords` is. -/

/-- `normalize_text` (lines 48-57): lowercase, replace every character that is
neither a word character (`\w`, ASCII here) nor whitespace by a space, split
on whitespace, stem each word, join with single spaces. -/
def normalize_text (stem : String → String) (text : String) : String :=
  let t := pyLower text
  let t := String.mk (t.toList.map
    (fun ch => if ¬ (ch.isAlphanum || ch == '_' || ch.isWhitespace) then ' ' else ch))
  joinWith " " ((pySplit t).map stem)

/-- `stem_keyword` (lines 60-64): lowercase, split on whitespace, stem each
word, join with single spaces. -/
def stem_keyword (stem : String → String) (keyword : String) : String :=
  joinWith " " ((pySplit (pyLower keyword)).map stem)

/-- Numeric value of an ASCII digit. -/
def digitVal (c : Char) : Nat := c.toNat - 48

/-- Leading match of `\d{2}:\d{2}:\d{2}\.\d{3}`: on success, the timestamp in
milliseconds and the remaining characters. -/
def tsLead : List Char → Option (Nat × List Char)
| a :: b :: ':' :: c :: d :: ':' :: e :: f :: '.' :: g :: h :: i :: rest =>
    if a.isDigit && b.isDigit && c.isDigit && d.isDigit && e.isDigit && f.isDigit
        && g.isDigit && h.isDigit && i.isDigit then
      some (((digitVal a * 10 + digitVal b) * 3600 + (digitVal c * 10 + digitVal d) * 60
              + (digitVal e * 10 + digitVal f)) * 1000
            + (digitVal g * 100 + digitVal h * 10 + digitVal i), rest)
    else none
| _ => none

/-- `re.match(r'(\d{2}:\d{2}:\d{2}\.\d{3})\s*-->\s*(\d{2}:\d{2}:\d{2}\.\d{3})', line)`
(line 81): a leading timestamp, optional whitespace, `-->`, optional
whitespace, a second timestamp; returns the first timestamp in milliseconds
(the code keeps only `group(1)`, converted to seconds on lines 83-86). -/
def matchTimestampLine (s : String) : Option Nat :=
  match tsLead s.toList with
  | none => none
  | some (ms, rest) =>
      match rest.dropWhile Char.isWhitespace with
      | '-' :: '-' :: '>' :: rest2 =>
          match tsLead (rest2.dropWhile Char.isWhitespace) with
          | some _ => some ms
          | none => none
      | _ => none

/-- `re.match(r'\d{2}:\d{2}:\d{2}\.\d{3}', line)` (line 91): does the line
start with a timestamp? -/
def hasTsLead (s : String) : Bool := (tsLead s.toList).isSome

/-- Fuel-driven scanner for `re.sub(r'<[^>]+>', '', text)` (line 98): remove
every `<`…`>` tag with non-empty body.  Each step consumes at least one
character, so `fuel = length` makes the fuel irrelevant. -/
def stripTagsAux : Nat → List Char → List Char
| 0, l => l
| _, [] => []
| fuel + 1, '<' :: rest =>
    let inner := rest.takeWhile (fun ch => ch != '>')
    match rest.dropWhile (fun ch => ch != '>') with
    | '>' :: rest2 =>
        if inner.length ≥ 1 then stripTagsAux fuel rest2
        else '<' :: stripTagsAux fuel rest
    | _ => '<' :: stripTagsAux fuel rest
| fuel + 1, c :: rest => c :: stripTagsAux fuel rest

/-- `re.sub(r'<[^>]+>', '', text)`. -/
def stripTags (s : String) : String := String.mk (stripTagsAux s.toList.length s.toList)

/-- A cue produced by `parse_vtt_cues`: start time (kept in exact
milliseconds; the code stores float seconds and later truncates to whole
seconds), cleaned text, and normalized text. -/
structure VttCue where
  startMs : Nat
  text : String
  normalized : String
deriving DecidableEq, Repr

/-- Is this line consumed as cue text (line 91): non-empty after stripping and
not starting with a timestamp? -/
def vttTextLine (l : String) : Bool := pyStrip l != "" && !hasTsLead (pyStrip l)

/-- The scanning loop of `parse_vtt_cues` (lines 76-108), fuel-driven: each
step consumes at least one line, so `fuel = number of lines` makes the fuel
irrelevant.  A timestamp line collects the following text lines (stripped),
joins them with spaces, strips tags, normalizes whitespace, and emits a cue
if the cleaned text is non-empty; any other line is skipped. -/
def parseVttLoop (stem : String → String) : Nat → List String → List VttCue
| 0, _ => []
| _, [] => []
| fuel + 1, line :: rest =>
    match matchTimestampLine (pyStrip line) with
    | some startMs =>
        let textLines := (rest.takeWhile vttTextLine).map pyStrip
        let rest' := rest.dropWhile vttTextLine
        let tailCues := parseVttLoop stem fuel rest'
        if textLines.isEmpty then tailCues
        else
          let cleanText := joinWith " " (pySplit (stripTags (joinWith " " textLines)))
          if cleanText == "" then tailCues
          else ⟨startMs, cleanText, normalize_text stem cleanText⟩ :: tailCues
    | none => parseVttLoop stem fuel rest

/-- `parse_vtt_cues` (lines 67-110). -/
def parse_vtt_cues (stem : String → String) (vtt_content : String) : List VttCue :=
  let lines := splitOnChar '\n' vtt_content
  parseVttLoop stem lines.length lines

/-! ## Claim C1 — behaviour on input without any timestamp line -/

/-- The identity stemmer, a concrete instance of the stemming capability. -/
def idStem : String → String := fun w => w

/-! ## The Keyword Matcher (`search_vtt_for_keywords`, lines 113-211)

`fuzz.ratio` / `fuzz.partial_ratio` from rapidfuzz are third-party; they
enter as capability parameters `score` / `phraseScore : String → String → Nat`
(0-100 similarity scores), with the same argument order as in the code. -/

/-- The `STOPWORDS` set (lines 32-38). -/
def STOPWORDS : List String :=
  ["form", "place", "put", "add", "make", "take", "get", "use", "set",
   "turn", "let", "give", "keep", "bring", "start", "try", "want",
   "top", "side", "bit", "way", "time", "thing", "part", "end"]

/-- A keyword match (lines 202-206). -/
structure KwMatch where
  keyword : String
  timestamp_seconds : Int
  context : String
deriving DecidableEq, Repr

/-- Python `hay.find(needle)`: index of the leftmost occurrence, `-1` if none. -/
def strFind (hay needle : String) : Int :=
  match (List.range (hay.toList.length + 1)).find?
      (fun i => leadsWith needle.toList (hay.toList.drop i)) with
  | some i => (i : Int)
  | none => -1

/-- Context trimming (lines 190-200): if the joined context exceeds 100
characters, locate the (lowercased) keyword and keep 40 characters before and
`40 + len(keyword)` after it, with `...` markers at truncated ends; if the
keyword is not found literally, keep the first 100 characters plus `...`. -/
def trimContext (keyword kwLower context : String) : String :=
  if pyLen context > 100 then
    let idx := strFind (pyLower context) kwLower
    if idx == -1 then String.mk (context.toList.take 100) ++ "..."
    else
      let s := max 0 (idx - 40)
      let e := min (pyLen context : Int) (idx + (pyLen keyword : Int) + 40)
      (if s > 0 then "..." else "") ++
        String.mk ((context.toList.drop s.toNat).take (e - s).toNat) ++
        (if e < (pyLen context : Int) then "..." else "")
  else context

/-- Does a keyword match this cue (lines 147-166)?  A single-word keyword
matches if some normalized token equals the stem or scores at least the
threshold; a multi-word keyword matches if the stemmed phrase is a substring
of the normalized text or the partial score reaches the threshold. -/
def cueFound (score phraseScore : String → String → Nat) (threshold : Nat)
    (stemmedKw : String) (kwWords : List String) (cue : VttCue) : Bool :=
  if kwWords.length == 1 then
    (pySplit cue.normalized).any
      (fun w => w == stemmedKw || decide (score w stemmedKw ≥ threshold))
  else
    pyIn stemmedKw cue.normalized || decide (phraseScore stemmedKw cue.normalized ≥ threshold)

/-- The per-keyword cue loop (lines 143-206), carrying the previous cue (for
context), the list of timestamps already retained for this keyword, and
peeking at the next cue (for context).  Returns the final retained-timestamp
list and the matches emitted for this keyword. -/
def searchCuesLoop (score phraseScore : String → String → Nat) (threshold : Nat)
    (keyword stemmedKw kwLower : String) (kwWords : List String) :
    Option VttCue → List Int → List VttCue → List Int × List KwMatch
| _, seen, [] => (seen, [])
| prevCue, seen, cue :: rest =>
    if cueFound score phraseScore threshold stemmedKw kwWords cue then
      let ts : Int := ((cue.startMs / 1000 : Nat) : Int)
      if seen.any (fun s => decide ((ts - s).natAbs ≤ 3)) then
        searchCuesLoop score phraseScore threshold keyword stemmedKw kwLower kwWords
          (some cue) seen rest
      else
        let parts := (match prevCue with | none => [] | some p => [p.text]) ++ [cue.text] ++
          (match rest with | [] => [] | n :: _ => [n.text])
        let context := trimContext keyword kwLower (joinWith " " parts)
        let res := searchCuesLoop score phraseScore threshold keyword stemmedKw kwLower kwWords
          (some cue) (seen ++ [ts]) rest
        (res.1, ⟨keyword, ts, context⟩ :: res.2)
    else
      searchCuesLoop score phraseScore threshold keyword stemmedKw kwLower kwWords
        (some cue) seen rest

/-- Lookup in the `seen_timestamps` dict (default `[]`, lines 140-141); the
dict is modelled as an association list. -/
def dictGet : List (String × List Int) → String → List Int
| [], _ => []
| e :: rest, k => if e.1 == k then e.2 else dictGet rest k

/-- Update of the `seen_timestamps` dict. -/
def dictSet : List (String × List Int) → String → List Int → List (String × List Int)
| [], k, v => [(k, v)]
| e :: rest, k, v => if e.1 == k then (k, v) :: rest else e :: dictSet rest k v

/-- Processing of one keyword (lines 131-206): stopwords are skipped; for any
other keyword the cue loop runs against the timestamps already retained for
the lowercased keyword, the dict entry is updated, and the matches appended. -/
def searchKwStep (stem : String → String) (score phraseScore : String → String → Nat)
    (threshold : Nat) (cues : List VttCue)
    (acc : List (String × List Int) × List KwMatch) (kw : String) :
    List (String × List Int) × List KwMatch :=
  if STOPWORDS.contains (pyLower kw) then acc
  else
    let stemmedKw := stem_keyword stem kw
    let kwWords := pySplit stemmedKw
    let kwLower := pyLower kw
    let r := searchCuesLoop score phraseScore threshold kw stemmedKw kwLower kwWords
      none (dictGet acc.1 kwLower) cues
    (dictSet acc.1 kwLower r.1, acc.2 ++ r.2)

/-- `search_vtt_for_keywords` (lines 113-211): parse the cues, process each
keyword (skipping stopwords), deduplicate hits per lowercased keyword within
a 3-second window, and sort all matches by timestamp. -/
def search_vtt_for_keywords (stem : String → String) (score phraseScore : String → String → Nat)
    (vtt_content : String) (keywords : List String) (fuzzy_threshold : Nat) : List KwMatch :=
  let cues := parse_vtt_cues stem vtt_content
  let res := keywords.foldl (searchKwStep stem score phraseScore fuzzy_threshold cues) ([], [])
  List.insertionSort (fun a b => a.timestamp_seconds ≤ b.timestamp_seconds) res.2

/-- Exact-equality similarity, a concrete instance of the scoring capability. -/
def exactScore : String → String → Nat := fun a b => if a == b then 100 else 0

/-! ## The Step Timer (`predict_step_times`, `generate_recipes.py` lines 362-481)

Timestamps and durations here are whole seconds (`Int`), exactly the integer
arithmetic the code performs;  the only float computation, the linear
interpolation on line 433, is modelled exactly over `ℚ` with Python's
`int()` truncation toward zero.  `MIN_STEP_DURATION = 5` (line 379).
A raw start that is still `None` where the code would compute
`max(None, ...)` (a `TypeError`) is modelled by the `Option.none` result of
`pass3`; the totality theorems below show this never happens. -/

/-- A `video_references` entry as consumed by the Step Timer. -/
structure VideoRef where
  keyword : String
  timestamp_seconds : Int
deriving DecidableEq, Repr

/-- An instruction step: its 1-based `step` number (the sort key of line 448),
its `keywords.techniques` list and its `video_references`. -/
structure Instruction where
  step : Int
  techniques : List String
  video_references : List VideoRef
deriving DecidableEq, Repr

/-- An instruction with its `predicted_time` (`start_seconds`/`end_seconds`,
lines 471-474). -/
structure TimedInstruction where
  inst : Instruction
  startSeconds : Int
  endSeconds : Int
deriving DecidableEq, Repr

/-- Python `min` over a non-empty list (the `[]` case never arises). -/
def listMinInt : List Int → Int
| [] => 0
| x :: xs => xs.foldl min x

/-- Pass 1 (lines 381-402): the raw start is the earliest technique-keyword
reference, else the earliest reference, else unknown. -/
def rawStartOf (inst : Instruction) : Option Int :=
  if inst.video_references.isEmpty then none
  else
    let techLower := inst.techniques.map pyLower
    let techRefs := inst.video_references.filter (fun r => techLower.contains (pyLower r.keyword))
    if !techRefs.isEmpty then some (listMinInt (techRefs.map (fun r => r.timestamp_seconds)))
    else some (listMinInt (inst.video_references.map (fun r => r.timestamp_seconds)))

/-- `known_times` (line 406): the `(index, raw start)` pairs of the steps with
a known raw start, in index order. -/
def knownTimes : Int → List (Option Int) → List (Int × Int)
| _, [] => []
| i, some t :: rest => (i, t) :: knownTimes (i + 1) rest
| i, none :: rest => knownTimes (i + 1) rest

/-- The scan of lines 421-426: the last known entry before index `i` (the
accumulator) and the first known entry after it (at which the loop breaks). -/
def findNearest (i : Int) : List (Int × Int) → Option (Int × Int) →
    Option (Int × Int) × Option (Int × Int)
| [], acc => (acc, none)
| (idx, t) :: rest, acc =>
    if idx < i then findNearest i rest (some (idx, t))
    else if idx > i then (acc, some (idx, t))
    else findNearest i rest acc

/-- Python `int()` on an exact rational: truncation toward zero. -/
def pyInt (q : ℚ) : Int := if 0 ≤ q then q.floor else q.ceil

/-- Pass 2, per step (lines 415-444): interpolate a missing raw start between
the nearest known neighbours, or extrapolate from the single known side using
the average step duration `video_duration // n` (Python floor division,
`Int.fdiv`); a known raw start is kept. -/
def fillRaw (videoDuration n : Int) (known : List (Int × Int)) (i : Int) :
    Option Int → Option Int
| some t => some t
| none =>
    match findNearest i known none with
    | (some (pIdx, pTime), some (nIdx, nTime)) =>
        some (pyInt ((pTime : ℚ) +
          (((i - pIdx : Int) : ℚ) / ((nIdx - pIdx : Int) : ℚ)) * ((nTime - pTime : Int) : ℚ)))
    | (some (pIdx, pTime), none) =>
        some (min (pTime + (videoDuration.fdiv n) * (i - pIdx)) (videoDuration - 5))
    | (none, some (nIdx, nTime)) =>
        some (max (nTime - (videoDuration.fdiv n) * (nIdx - i)) 0)
    | (none, none) => none

/-- Pass 2 over the list (lines 414-444), indices counting up from `i`. -/
def pass2Fill (videoDuration n : Int) (known : List (Int × Int)) :
    Int → List (Option Int) → List (Option Int)
| _, [] => []
| i, r :: rest => fillRaw videoDuration n known i r :: pass2Fill videoDuration n known (i + 1) rest

/-- The no-references branch of pass 2 (lines 408-412): step `k` gets raw
start `k * (video_duration // max(n, 1))`. -/
def evenlyFill (stepDuration : Int) : Int → List (Option Int) → List (Option Int)
| _, [] => []
| i, _ :: rest => some (i * stepDuration) :: evenlyFill stepDuration (i + 1) rest

/-- Pass 3 (lines 446-474): enforce sequential order and the 5-second minimum
duration, carrying the previous step's predicted end.  A `none` raw start
(where Python would raise `TypeError` in `max`) yields `none`. -/
def pass3 (videoDuration : Int) : Int → List (Option Int × Instruction) →
    Option (List TimedInstruction)
| _, [] => some []
| prevEnd, (r, inst) :: rest =>
    match r with
    | none => none
    | some raw =>
        let start := max raw prevEnd
        match rest with
        | [] =>
            let e := videoDuration
            let e := if e - start < 5 then min (start + 5) videoDuration else e
            some [⟨inst, start, e⟩]
        | (r', _) :: _ =>
            match r' with
            | none => none
            | some nextRaw =>
                let e := max nextRaw (start + 5)
                let e := if e - start < 5 then min (start + 5) videoDuration else e
                (pass3 videoDuration e rest).map (fun out => ⟨inst, start, e⟩ :: out)

/-- `predict_step_times` (lines 362-481): pass 1, pass 2, the sort by `step`
(line 448, a stable sort modelled by insertion sort), pass 3. -/
def predict_step_times (instructions : List Instruction) (video_duration : Int) :
    Option (List TimedInstruction) :=
  let raws := instructions.map rawStartOf
  let known := knownTimes 0 raws
  let n : Int := (instructions.length : Int)
  let raws2 :=
    if known.isEmpty then evenlyFill (video_duration.fdiv (max n 1)) 0 raws
    else pass2Fill video_duration n known 0 raws
  let sorted := List.insertionSort (fun a b => a.2.step ≤ b.2.step) (raws2.zip instructions)
  pass3 video_duration 0 sorted

/-! # Theorems -/

/-! ## Dedup length bound (supports claim C6's amended statement) -/

/-- Each loop iteration of the Deduplicator emits at most one cue, plus the
final pending cue. -/
theorem dedupeYtAux_length_le (l : List Caption) :
    ∀ prev : Caption, (dedupeYtAux prev l).length ≤ l.length + 1 := by
  induction l with
  | nil => intro prev; simp [dedupeYtAux]
  | cons c rest ih =>
      intro prev
      simp only [dedupeYtAux]
      cases dedupeStep prev c with
      | skip => exact le_trans (ih prev) (by simp)
      | absorb p => exact le_trans (ih p) (by simp)
      | emit p q => simpa [Nat.succ_le_succ_iff] using ih q
      | replace q => exact le_trans (ih q) (by simp)

/-- The Deduplicator never produces more cues than it consumes. -/
theorem dedupeYtCaptions_length_le (l : List Caption) :
    (dedupeYtCaptions l).length ≤ l.length := by
  cases l with
  | nil => simp [dedupeYtCaptions]
  | cons c rest => simpa [dedupeYtCaptions] using dedupeYtAux_length_le rest c

/-! ## Claim C4 — the near-zero-duration containment rule -/

/-- **C4** (code_bug evidence).  The containment rule of the Caption
Deduplicator is claimed to absorb a contained cue only when the cue's own
duration is under 0.15s.  The code computes `start - end` instead of the
duration `end - start`, so a contained cue of duration 1s (far above 0.15s)
is still absorbed: the pending cue `[0s, 2s] "the quick brown fox"` swallows
the 1-second cue `[2s, 3s] "quick brown"`, extending the pending cue's end to
3s and discarding the contained cue's text. -/
theorem c4_containment_ignores_duration :
    dedupeYtCaptions [⟨0, 2000, "the quick brown fox"⟩, ⟨2000, 3000, "quick brown"⟩] =
      [⟨0, 3000, "the quick brown fox"⟩] := by decide

/-! ## Claim C5 — the merge example -/

/-- **C5** (counterexample).  The spec's merge example claims the cues
`[{0.0-0.5s, "the quick"}, {0.4-1.2s, "the quick brown fox"}]` dedupe to a
single segment.  They do not: the containment rule tests whether the *new*
cue's text occurs in the *pending* cue's text (not the converse), so the pass
yields two segments. -/
theorem c5_merge_example_two_segments :
    (parseSegments [⟨0, 500, "the quick"⟩, ⟨400, 1200, "the quick brown fox"⟩]).length ≠ 1 := by
  decide

/-- **C5** (amended).  The two cues of the spec's merge example dedupe to two
segments: `"the quick"` spanning 0.0-0.399s (its end pulled back to
`new.start - 1ms` by the boundary correction) and `"the quick brown fox"`
spanning 0.4-1.2s. -/
theorem c5_merge_example_actual :
    parseSegments [⟨0, 500, "the quick"⟩, ⟨400, 1200, "the quick brown fox"⟩] =
      [⟨0, 399, "the quick"⟩, ⟨400, 1200, "the quick brown fox"⟩] := by decide

/-! ## Claim C6 — idempotence of the Deduplicator -/

/-- **C6** (counterexample).  The Deduplicator is not idempotent: deduplicating
`[{0-1s, "foo\nfoo"}, {2-3s, "foo\nbar"}]` once yields
`[{0-1s, "foo\nfoo"}, {2-3s, "bar"}]`, and a second pass merges the now
two-or-fewer-word fragment `"bar"` into its predecessor, yielding the single
cue `{0-3s, "foo\nfoo bar"}`. -/
theorem c6_not_idempotent :
    dedupeYtCaptions (dedupeYtCaptions [⟨0, 1000, "foo\nfoo"⟩, ⟨2000, 3000, "foo\nbar"⟩]) ≠
      dedupeYtCaptions [⟨0, 1000, "foo\nfoo"⟩, ⟨2000, 3000, "foo\nbar"⟩] := by decide

/-- **C6** (amended).  Re-running the Deduplicator on its own output is not in
general a no-op (see `c6_not_idempotent`); what does hold is that a second
pass never produces more cues than the first pass produced. -/
theorem c6_second_pass_length_le (l : List Caption) :
    (dedupeYtCaptions (dedupeYtCaptions l)).length ≤ (dedupeYtCaptions l).length :=
  dedupeYtCaptions_length_le (dedupeYtCaptions l)

/-! ## Claim C10 — the caption-format guard -/

/-- **C10**.  For every extension other than `"vtt"` and every content string,
`parse_captions` fails with the `ValueError` message before examining the
content (the result is the same for every content string and every parser
capability), producing no transcript text and no segments. -/
theorem c10_only_vtt_accepted (fromString : String → List Caption)
    (ext content : String) (h : ext ≠ "vtt") :
    parse_captions fromString ext content =
      Except.error ("Unsupported caption format: " ++ ext) := by
  simp [parse_captions, h]

/-- **C10** (witness): the `"srt"` extension is rejected regardless of content. -/
theorem c10_witness :
    parse_captions (fun _ => []) "srt" "1\n00:00:00,000 --> 00:00:01,000\nhi\n" =
      Except.error ("Unsupported caption format: " ++ "srt") :=
  c10_only_vtt_accepted (fun _ => []) "srt" _ (by decide)

/-! ## Ordering and boundary invariants of the Deduplicator (claim C7) -/

/-- The boundary correction never changes the pending cue's start. -/
theorem boundaryFix_start (prev d : Caption) : (boundaryFix prev d).start = prev.start := by
  unfold boundaryFix; split_ifs <;> rfl

/-- The boundary correction pulls the pending cue's end at worst to one
millisecond below its own start (for a later-starting incoming cue). -/
theorem boundaryFix_stop_ge {prev : Caption} (d : Caption) (h1 : prev.start ≤ prev.stop)
    (h3 : prev.start ≤ d.start) : prev.start - 1 ≤ (boundaryFix prev d).stop := by
  unfold boundaryFix; split_ifs with h
  · exact le_trans (by omega) (le_max_left _ _)
  · show prev.start - 1 ≤ prev.stop
    omega

/-- On a non-inverted cue the swap correction leaves start and end unchanged
(it either does nothing or swaps two equal endpoints). -/
theorem swapFix_eq (d : Caption) (h : d.start ≤ d.stop) :
    (swapFix d).start = d.start ∧ (swapFix d).stop = d.stop := by
  unfold swapFix; split_ifs with hs
  · constructor
    · show d.stop = d.start
      omega
    · show d.start = d.stop
      omega
  · exact ⟨rfl, rfl⟩

/-- `swapFix_eq` specialised to a cue whose text was rewritten. -/
theorem swapFix_text (c : Caption) (t : String) (h : c.start ≤ c.stop) :
    (swapFix { c with text := t }).start = c.start ∧
      (swapFix { c with text := t }).stop = c.stop :=
  swapFix_eq _ h

/-- Behaviour of one Deduplicator iteration on well-formed input: an absorbed
result keeps the pending cue's start and stays non-inverted; an emitted cue
keeps the pending cue's start and its end is at worst `start - 1`; the new
pending cue keeps the incoming cue's start and is non-inverted. -/
theorem dedupeStep_spec {prev c : Caption}
    (h1 : prev.start ≤ prev.stop) (h2 : c.start ≤ c.stop) (h3 : prev.start ≤ c.start) :
    (∀ p, dedupeStep prev c = .absorb p → p.start = prev.start ∧ p.start ≤ p.stop) ∧
    (∀ p q, dedupeStep prev c = .emit p q →
      (p.start = prev.start ∧ p.start - 1 ≤ p.stop) ∧ (q.start = c.start ∧ q.start ≤ q.stop)) ∧
    (∀ q, dedupeStep prev c = .replace q → q.start = c.start ∧ q.start ≤ q.stop) := by
  refine ⟨?_, ?_, ?_⟩
  · intro p h
    simp only [dedupeStep] at h
    split_ifs at h
    all_goals injection h with hp
    all_goals subst hp
    all_goals exact ⟨rfl, show prev.start ≤ c.stop by omega⟩
  · intro p q h
    simp only [dedupeStep] at h
    split_ifs at h
    all_goals injection h with hp hq
    all_goals subst hp
    all_goals subst hq
    all_goals refine ⟨⟨boundaryFix_start _ _, ?_⟩, ?_, ?_⟩
    · rw [boundaryFix_start]; exact boundaryFix_stop_ge _ h1 h3
    · exact (swapFix_text c _ h2).1
    · exact le_of_eq_of_le (swapFix_text c _ h2).1
        (le_of_le_of_eq h2 (swapFix_text c _ h2).2.symm)
    · rw [boundaryFix_start]; exact boundaryFix_stop_ge _ h1 h3
    · exact (swapFix_text c _ h2).1
    · exact le_of_eq_of_le (swapFix_text c _ h2).1
        (le_of_le_of_eq h2 (swapFix_text c _ h2).2.symm)
  · intro q h
    simp only [dedupeStep] at h
    split_ifs at h
    all_goals injection h with hq
    all_goals subst hq
    refine ⟨(swapFix_text c _ h2).1, ?_⟩
    exact le_of_eq_of_le (swapFix_text c _ h2).1
      (le_of_le_of_eq h2 (swapFix_text c _ h2).2.symm)

/-- Invariants of the Deduplicator loop, by induction over the remaining cues:
if the pending cue is non-inverted, every remaining cue is non-inverted,
starts no earlier than the pending cue, and the remaining cues are sorted by
start, then every output cue is inverted by at most 1ms, starts no earlier
than the pending cue, and the output is sorted by start. -/
theorem dedupeYtAux_spec : ∀ (l : List Caption) (prev : Caption),
    prev.start ≤ prev.stop →
    (∀ c ∈ l, c.start ≤ c.stop) →
    (∀ c ∈ l, prev.start ≤ c.start) →
    List.Pairwise (fun a b : Caption => a.start ≤ b.start) l →
    (∀ o ∈ dedupeYtAux prev l, o.start - 1 ≤ o.stop) ∧
    (∀ o ∈ dedupeYtAux prev l, prev.start ≤ o.start) ∧
    List.Pairwise (fun a b : Caption => a.start ≤ b.start) (dedupeYtAux prev l)
| [], prev, h1, _, _, _ => by
    refine ⟨?_, ?_, ?_⟩ <;> simp [dedupeYtAux]
    omega
| c :: rest, prev, h1, h2, h3, hp => by
    have hc2 : c.start ≤ c.stop := h2 c (List.mem_cons_self _ _)
    have hc3 : prev.start ≤ c.start := h3 c (List.mem_cons_self _ _)
    have hrest2 : ∀ x ∈ rest, x.start ≤ x.stop := fun x hx => h2 x (List.mem_cons_of_mem _ hx)
    have hcrest : ∀ x ∈ rest, c.start ≤ x.start := (List.pairwise_cons.mp hp).1
    have hprest := (List.pairwise_cons.mp hp).2
    have hs := dedupeStep_spec h1 hc2 hc3
    simp only [dedupeYtAux]
    cases hstep : dedupeStep prev c with
    | skip =>
        exact dedupeYtAux_spec rest prev h1 hrest2
          (fun x hx => h3 x (List.mem_cons_of_mem _ hx)) hprest
    | absorb p =>
        obtain ⟨hps, hpv⟩ := hs.1 p hstep
        have ih := dedupeYtAux_spec rest p hpv hrest2
          (fun x hx => by rw [hps]; exact le_trans hc3 (hcrest x hx)) hprest
        exact ⟨ih.1, fun o ho => by have := ih.2.1 o ho; omega, ih.2.2⟩
    | emit p q =>
        obtain ⟨⟨hps, hpv⟩, hqs, hqv⟩ := hs.2.1 p q hstep
        have ih := dedupeYtAux_spec rest q hqv hrest2
          (fun x hx => by rw [hqs]; exact hcrest x hx) hprest
        refine ⟨?_, ?_, ?_⟩
        · intro o ho
          rcases List.mem_cons.mp ho with rfl | ho'
          · exact hpv
          · exact ih.1 o ho'
        · intro o ho
          rcases List.mem_cons.mp ho with rfl | ho'
          · omega
          · have := ih.2.1 o ho'; omega
        · refine List.pairwise_cons.mpr ⟨?_, ih.2.2⟩
          intro o ho
          have := ih.2.1 o ho
          omega
    | replace q =>
        obtain ⟨hqs, hqv⟩ := hs.2.2 q hstep
        have ih := dedupeYtAux_spec rest q hqv hrest2
          (fun x hx => by rw [hqs]; exact hcrest x hx) hprest
        exact ⟨ih.1, fun o ho => by have := ih.2.1 o ho; omega, ih.2.2⟩

/-! ## Claim C7 — segment ordering and start/end invariants -/

/-- **C7** (counterexample).  A perfectly well-formed parsed caption input
(cues sorted by start, each with `start <= end`) whose two cues share the
same start time produces a segment with `startTime > endTime`: the boundary
correction pulls the first cue's end to `new.start - 1ms = 0.999s`, below its
own 1.0s start. -/
theorem c7_segment_start_can_exceed_end :
    ¬ (∀ s ∈ parseSegments
        [⟨1000, 2000, "hello world one"⟩, ⟨1000, 3000, "totally different words here"⟩],
        s.startTime ≤ s.endTime) := by decide

/-- **C7** (amended).  For parsed caption input whose cues are sorted by start
and individually non-inverted, every emitted Segment satisfies
`endTime >= startTime - 1ms` (the claimed `startTime <= endTime` can be
violated by exactly the 1ms boundary correction), and the Segment list is
in non-decreasing `startTime` order. -/
theorem c7_segments_nearly_ordered (cues : List Caption)
    (hv : ∀ c ∈ cues, c.start ≤ c.stop)
    (hsorted : List.Pairwise (fun a b : Caption => a.start ≤ b.start) cues) :
    (∀ s ∈ parseSegments cues, s.startTime - 1 ≤ s.endTime) ∧
      List.Pairwise (fun a b : Segment => a.startTime ≤ b.startTime) (parseSegments cues) := by
  unfold parseSegments
  cases cues with
  | nil => simp [dedupeYtCaptions]
  | cons c rest =>
      have h := dedupeYtAux_spec rest c (hv c (List.mem_cons_self _ _))
        (fun x hx => hv x (List.mem_cons_of_mem _ hx))
        ((List.pairwise_cons.mp hsorted).1) ((List.pairwise_cons.mp hsorted).2)
      constructor
      · intro s hsm
        obtain ⟨o, ho, rfl⟩ := List.mem_map.mp hsm
        exact h.1 o ho
      · exact List.Pairwise.map _ (fun a b hab => hab) h.2.2

/-- **C7** (witness): the amended invariant at a concrete well-formed two-cue
input. -/
theorem c7_witness :
    (∀ s ∈ parseSegments [⟨0, 1000, "hello there everyone"⟩, ⟨2500, 4000, "completely new text"⟩],
        s.startTime - 1 ≤ s.endTime) ∧
      List.Pairwise (fun a b : Segment => a.startTime ≤ b.startTime)
        (parseSegments [⟨0, 1000, "hello there everyone"⟩, ⟨2500, 4000, "completely new text"⟩]) :=
  c7_segments_nearly_ordered _ (by decide) (by decide)

/-- **C1** (counterexample).  On input containing no valid timestamp line,
`parse_vtt_cues` does not fail: it silently returns the empty cue list (the
claimed `UnsupportedFormatError` does not exist anywhere in the code). -/
theorem c1_no_timestamp_silent_empty :
    parse_vtt_cues idStem "hello world\nstill no timestamps here" = [] := by decide

/-- Helper for C1: the scanning loop emits nothing when no line carries a
valid timestamp. -/
theorem parseVttLoop_no_ts (stem : String → String) :
    ∀ (fuel : Nat) (lines : List String),
      (∀ l ∈ lines, matchTimestampLine (pyStrip l) = none) →
      parseVttLoop stem fuel lines = []
| 0, l, _ => by cases l <;> rfl
| _ + 1, [], _ => rfl
| fuel + 1, line :: rest, h => by
    simp only [parseVttLoop, h line (List.mem_cons_self _ _)]
    exact parseVttLoop_no_ts stem fuel rest (fun l hl => h l (List.mem_cons_of_mem _ hl))

/-- **C1** (amended).  For every raw caption input that contains no valid
timestamp line, `parse_vtt_cues` raises nothing and returns the empty cue
list — the absence of cues, not an `UnsupportedFormatError`, is what the
caller observes. -/
theorem c1_no_timestamp_returns_empty (stem : String → String) (content : String)
    (h : ∀ l ∈ splitOnChar '\n' content, matchTimestampLine (pyStrip l) = none) :
    parse_vtt_cues stem content = [] :=
  parseVttLoop_no_ts stem _ _ h

/-- **C1** (witness): even with a `WEBVTT` header, content without a timestamp
line yields the empty cue list. -/
theorem c1_witness : parse_vtt_cues idStem "WEBVTT\n\njust words" = [] :=
  c1_no_timestamp_returns_empty idStem "WEBVTT\n\njust words" (by decide)

/-! ## Claim C9 — temporal deduplication of keyword hits -/

/-- The per-keyword cue loop: the final retained-timestamp list is the
incoming one extended by the emitted matches' timestamps, every emitted match
carries the processed keyword, and retained timestamps stay pairwise more
than 3 seconds apart. -/
theorem searchCuesLoop_spec (score phraseScore : String → String → Nat) (threshold : Nat)
    (keyword stemmedKw kwLower : String) (kwWords : List String) :
    ∀ (cues : List VttCue) (prevCue : Option VttCue) (seen : List Int),
      (searchCuesLoop score phraseScore threshold keyword stemmedKw kwLower kwWords
          prevCue seen cues).1 =
        seen ++ ((searchCuesLoop score phraseScore threshold keyword stemmedKw kwLower kwWords
          prevCue seen cues).2.map (fun m => m.timestamp_seconds)) ∧
      (∀ m ∈ (searchCuesLoop score phraseScore threshold keyword stemmedKw kwLower kwWords
          prevCue seen cues).2, m.keyword = keyword) ∧
      (List.Pairwise (fun a b : Int => (a - b).natAbs > 3) seen →
        List.Pairwise (fun a b : Int => (a - b).natAbs > 3)
          ((searchCuesLoop score phraseScore threshold keyword stemmedKw kwLower kwWords
            prevCue seen cues).1))
| [], prevCue, seen => by simp [searchCuesLoop]
| cue :: rest, prevCue, seen => by
    simp only [searchCuesLoop]
    split_ifs with hf hdup
    · exact searchCuesLoop_spec score phraseScore threshold keyword stemmedKw kwLower kwWords
        rest (some cue) seen
    · have ih := searchCuesLoop_spec score phraseScore threshold keyword stemmedKw kwLower kwWords
        rest (some cue) (seen ++ [((cue.startMs / 1000 : Nat) : Int)])
      have hsep : ∀ s ∈ seen, ((((cue.startMs / 1000 : Nat) : Int)) - s).natAbs > 3 := by
        intro s hs
        simp only [List.any_eq_true, decide_eq_true_eq, not_exists, not_and] at hdup
        have := hdup s hs
        omega
      refine ⟨?_, ?_, ?_⟩
      · simp only []
        rw [ih.1]
        simp
      · intro m hm
        rcases List.mem_cons.mp hm with rfl | hm'
        · rfl
        · exact ih.2.1 m hm'
      · intro hp
        refine ih.2.2 (List.pairwise_append.mpr ⟨hp, List.pairwise_singleton _ _, ?_⟩)
        intro s hs t ht
        rcases List.mem_singleton.mp ht with rfl
        have := hsep s hs
        omega
    · exact searchCuesLoop_spec score phraseScore threshold keyword stemmedKw kwLower kwWords
        rest (some cue) seen

/-- Updating a dict key and reading it back yields the written value. -/
theorem dictGet_dictSet_self : ∀ (d : List (String × List Int)) (k : String) (v : List Int),
    dictGet (dictSet d k v) k = v
| [], k, v => by simp [dictGet, dictSet]
| e :: rest, k, v => by
    by_cases h : e.1 = k
    · simp [dictGet, dictSet, h]
    · simp [dictGet, dictSet, h, dictGet_dictSet_self rest k v]

/-- Updating a dict key leaves every other key unchanged. -/
theorem dictGet_dictSet_other : ∀ (d : List (String × List Int)) (k : String) (v : List Int)
    (k' : String), k' ≠ k → dictGet (dictSet d k v) k' = dictGet d k'
| [], k, v, k', h => by
    have h1 : (k == k') = false := beq_eq_false_iff_ne.mpr (fun hh => h hh.symm)
    simp [dictSet, dictGet, h1]
| e :: rest, k, v, k', h => by
    by_cases he : e.1 = k
    · have h1 : (k == k') = false := beq_eq_false_iff_ne.mpr (fun hh => h hh.symm)
      have h2 : (e.1 == k') = false := beq_eq_false_iff_ne.mpr
        (by intro hh; rw [he] at hh; exact h hh.symm)
      simp [dictGet, dictSet, he, h1, h2]
    · simp [dictGet, dictSet, he, dictGet_dictSet_other rest k v k' h]

/-- Invariant of the keyword fold: for every lowercased key, the dict holds
exactly the timestamps of the matches emitted so far for that key, pairwise
more than 3 seconds apart. -/
theorem searchFold_spec (stem : String → String) (score phraseScore : String → String → Nat)
    (threshold : Nat) (cues : List VttCue) :
    ∀ (keywords : List String) (d : List (String × List Int)) (ms : List KwMatch),
      (∀ kl : String,
        dictGet d kl =
          ((ms.filter (fun m => pyLower m.keyword == kl)).map (fun m => m.timestamp_seconds)) ∧
        List.Pairwise (fun a b : Int => (a - b).natAbs > 3) (dictGet d kl)) →
      ∀ kl : String,
        dictGet (keywords.foldl (searchKwStep stem score phraseScore threshold cues) (d, ms)).1 kl =
          (((keywords.foldl (searchKwStep stem score phraseScore threshold cues) (d, ms)).2.filter
              (fun m => pyLower m.keyword == kl)).map (fun m => m.timestamp_seconds)) ∧
        List.Pairwise (fun a b : Int => (a - b).natAbs > 3)
          (dictGet (keywords.foldl (searchKwStep stem score phraseScore threshold cues) (d, ms)).1 kl)
| [], d, ms, hinv => hinv
| kw :: rest, d, ms, hinv => by
    rw [List.foldl_cons]
    refine searchFold_spec stem score phraseScore threshold cues rest
      (searchKwStep stem score phraseScore threshold cues (d, ms) kw).1
      (searchKwStep stem score phraseScore threshold cues (d, ms) kw).2 ?_
    intro kl
    unfold searchKwStep
    split_ifs with hstop
    · exact hinv kl
    · have hspec := searchCuesLoop_spec score phraseScore threshold kw (stem_keyword stem kw)
        (pyLower kw) (pySplit (stem_keyword stem kw)) cues none (dictGet d (pyLower kw))
      dsimp only
      by_cases hkl : kl = pyLower kw
      · subst hkl
        have hall : ∀ m ∈ (searchCuesLoop score phraseScore threshold kw (stem_keyword stem kw)
            (pyLower kw) (pySplit (stem_keyword stem kw)) none (dictGet d (pyLower kw)) cues).2,
            (pyLower m.keyword == pyLower kw) = true := by
          intro m hm
          rw [hspec.2.1 m hm]
          exact beq_self_eq_true _
        have hfr := List.filter_eq_self.mpr hall
        constructor
        · rw [dictGet_dictSet_self, hspec.1, List.filter_append, List.map_append, hfr, (hinv _).1]
        · rw [dictGet_dictSet_self]
          exact hspec.2.2 (hinv _).2
      · have hnone : ∀ m ∈ (searchCuesLoop score phraseScore threshold kw (stem_keyword stem kw)
            (pyLower kw) (pySplit (stem_keyword stem kw)) none (dictGet d (pyLower kw)) cues).2,
            ¬ ((pyLower m.keyword == kl) = true) := by
          intro m hm hcontra
          rw [hspec.2.1 m hm] at hcontra
          exact hkl (beq_iff_eq.mp hcontra).symm
        have hfr := List.filter_eq_nil_iff.mpr hnone
        constructor
        · rw [dictGet_dictSet_other _ _ _ _ hkl, (hinv kl).1, List.filter_append, List.map_append,
            hfr]
          simp
        · rw [dictGet_dictSet_other _ _ _ _ hkl]
          exact (hinv kl).2

/-- **C9**.  Temporal deduplication of the Keyword Matcher.  General part (for
every stemming/scoring capability, content, keyword list and threshold): the
retained matches, grouped by lowercased keyword, are pairwise more than 3
seconds apart — a new hit within 3 seconds (inclusive) of a previously
retained timestamp for that keyword is discarded.  Concrete part: with cues
containing the keyword `"pepper"` at 10s, 11s and 14s, the hits at 10s and
11s collapse to the single retained match at 10s, while the 14s hit remains. -/
theorem c9_temporal_dedup :
    (∀ (stem : String → String) (score phraseScore : String → String → Nat)
        (content : String) (keywords : List String) (threshold : Nat) (kl : String),
      List.Pairwise (fun a b : Int => (a - b).natAbs > 3)
        (((search_vtt_for_keywords stem score phraseScore content keywords threshold).filter
            (fun m => pyLower m.keyword == kl)).map (fun m => m.timestamp_seconds))) ∧
    (search_vtt_for_keywords idStem exactScore exactScore
        ("WEBVTT\n\n00:00:10.000 --> 00:00:11.000\npepper one here\n\n00:00:11.500 --> 00:00:12.000\npepper two here\n\n00:00:14.000 --> 00:00:15.000\npepper three here\n")
        ["pepper"] 80).map (fun m => m.timestamp_seconds) = [10, 14] := by
  constructor
  · intro stem score phraseScore content keywords threshold kl
    have hfold := searchFold_spec stem score phraseScore threshold (parse_vtt_cues stem content)
      keywords [] [] (by intro kl'; simp [dictGet]) kl
    have hsym : ∀ {a b : Int}, (a - b).natAbs > 3 → (b - a).natAbs > 3 := by
      intro a b hab; omega
    unfold search_vtt_for_keywords
    dsimp only
    have hperm := List.perm_insertionSort
      (fun a b : KwMatch => a.timestamp_seconds ≤ b.timestamp_seconds)
      (List.foldl (searchKwStep stem score phraseScore threshold (parse_vtt_cues stem content))
        ([], []) keywords).2
    have hpm := (hperm.filter (fun m => pyLower m.keyword == kl)).map
      (fun m => m.timestamp_seconds)
    exact (hpm.pairwise_iff hsym).mpr (hfold.1 ▸ hfold.2)
  · decide

/-- The final clamp on the last step always yields `videoDuration`. -/
theorem clampEnd_eq (vd start : Int) :
    (if vd - start < 5 then min (start + 5) vd else vd) = vd := by
  split_ifs with h
  · omega
  · rfl

/-- The clamp never fires on a non-last step: its end is already at least
`start + 5`. -/
theorem clampMid_eq (vd start nextRaw : Int) :
    (if max nextRaw (start + 5) - start < 5 then min (start + 5) vd
      else max nextRaw (start + 5)) = max nextRaw (start + 5) := by
  split_ifs with h
  · omega
  · rfl

/-- Pass-3 invariants: the output has one entry per step, its first start is
at least the incoming `prevEnd`, consecutive windows do not overlap
(each start is at least the previous end), and the last end is exactly
`videoDuration`. -/
theorem pass3_spec (vd : Int) : ∀ (l : List (Option Int × Instruction)) (prevEnd : Int)
    (out : List TimedInstruction), pass3 vd prevEnd l = some out →
    out.length = l.length ∧
    (∀ t ∈ out.head?, prevEnd ≤ t.startSeconds) ∧
    List.Chain' (fun a b => a.endSeconds ≤ b.startSeconds) out ∧
    (l ≠ [] → ∃ t, out.getLast? = some t ∧ t.endSeconds = vd)
| [], prevEnd, out, h => by
    simp only [pass3, Option.some.injEq] at h
    subst h
    simp
| (none, inst) :: rest, prevEnd, out, h => by simp [pass3] at h
| (some raw, inst) :: [], prevEnd, out, h => by
    simp only [pass3, Option.some.injEq] at h
    subst h
    refine ⟨rfl, ?_, ?_, ?_⟩
    · intro t ht
      simp only [List.head?_cons, Option.mem_def, Option.some.injEq] at ht
      subst ht
      exact le_max_right _ _
    · simp
    · intro _
      exact ⟨_, rfl, clampEnd_eq vd _⟩
| (some raw, inst) :: (none, inst') :: rest', prevEnd, out, h => by simp [pass3] at h
| (some raw, inst) :: (some nextRaw, inst') :: rest', prevEnd, out, h => by
    simp only [pass3, Option.map_eq_some'] at h
    obtain ⟨out', hout', rfl⟩ := h
    have ih := pass3_spec vd ((some nextRaw, inst') :: rest') _ out' hout'
    refine ⟨by simpa using ih.1, ?_, ?_, ?_⟩
    · intro t ht
      simp only [List.head?_cons, Option.mem_def, Option.some.injEq] at ht
      subst ht
      exact le_max_right _ _
    · refine List.chain'_cons'.mpr ⟨?_, ih.2.2.1⟩
      intro y hy
      exact ih.2.1 y hy
    · intro _
      obtain ⟨t, ht, htv⟩ := ih.2.2.2 (by simp)
      refine ⟨t, ?_, htv⟩
      cases out' with
      | nil => simp at ht
      | cons y ys => simpa [List.getLast?_cons_cons] using ht

/-- Pass-3 minimum-duration property: every window is at least 5 seconds
long, except when the `videoDuration` cap forces the last window shorter. -/
theorem pass3_duration (vd : Int) : ∀ (l : List (Option Int × Instruction)) (prevEnd : Int)
    (out : List TimedInstruction), pass3 vd prevEnd l = some out →
    ∀ t ∈ out, 5 ≤ t.endSeconds - t.startSeconds ∨
      (t.endSeconds = vd ∧ vd - t.startSeconds < 5)
| [], prevEnd, out, h => by
    simp only [pass3, Option.some.injEq] at h
    subst h
    simp
| (none, inst) :: rest, prevEnd, out, h => by simp [pass3] at h
| (some raw, inst) :: [], prevEnd, out, h => by
    simp only [pass3, Option.some.injEq] at h
    subst h
    intro t ht
    simp only [List.mem_singleton] at ht
    subst ht
    rw [clampEnd_eq vd _]
    dsimp only
    omega
| (some raw, inst) :: (none, inst') :: rest', prevEnd, out, h => by simp [pass3] at h
| (some raw, inst) :: (some nextRaw, inst') :: rest', prevEnd, out, h => by
    simp only [pass3, Option.map_eq_some'] at h
    obtain ⟨out', hout', rfl⟩ := h
    intro t ht
    rcases List.mem_cons.mp ht with rfl | ht'
    · rw [clampMid_eq vd _ _]
      dsimp only
      left
      omega
    · exact pass3_duration vd ((some nextRaw, inst') :: rest') _ out' hout' t ht'

/-- Pass 3 succeeds whenever every raw start has been filled in. -/
theorem pass3_isSome (vd : Int) : ∀ (l : List (Option Int × Instruction)) (prevEnd : Int),
    (∀ p ∈ l, p.1.isSome) → ∃ out, pass3 vd prevEnd l = some out
| [], _, _ => ⟨[], rfl⟩
| (none, inst) :: rest, _, hall => by
    have := hall (none, inst) (List.mem_cons_self _ _)
    simp at this
| (some raw, inst) :: [], prevEnd, _ => ⟨_, rfl⟩
| (some raw, inst) :: (none, inst') :: rest', _, hall => by
    have := hall (none, inst') (by simp)
    simp at this
| (some raw, inst) :: (some nextRaw, inst') :: rest', prevEnd, hall => by
    obtain ⟨out', hout'⟩ := pass3_isSome vd ((some nextRaw, inst') :: rest')
      (if max nextRaw (max raw prevEnd + 5) - max raw prevEnd < 5
        then min (max raw prevEnd + 5) vd else max nextRaw (max raw prevEnd + 5))
      (fun p hp => hall p (List.mem_cons_of_mem _ hp))
    refine ⟨⟨inst, max raw prevEnd,
      if max nextRaw (max raw prevEnd + 5) - max raw prevEnd < 5
        then min (max raw prevEnd + 5) vd else max nextRaw (max raw prevEnd + 5)⟩ :: out', ?_⟩
    show Option.map
        (fun out => (⟨inst, max raw prevEnd,
          if max nextRaw (max raw prevEnd + 5) - max raw prevEnd < 5
            then min (max raw prevEnd + 5) vd
            else max nextRaw (max raw prevEnd + 5)⟩ : TimedInstruction) :: out)
        (pass3 vd
          (if max nextRaw (max raw prevEnd + 5) - max raw prevEnd < 5
            then min (max raw prevEnd + 5) vd else max nextRaw (max raw prevEnd + 5))
          ((some nextRaw, inst') :: rest')) = _
    rw [hout']
    rfl

/-- If the scan of lines 421-426 finds neither a preceding nor a following
known entry, then the accumulator was empty and every known entry sits at
index `i` itself. -/
theorem findNearest_none_char : ∀ (known : List (Int × Int)) (i : Int)
    (acc : Option (Int × Int)), findNearest i known acc = (none, none) →
    acc = none ∧ ∀ e ∈ known, e.1 = i
| [], i, acc, h => by
    simp only [findNearest, Prod.mk.injEq] at h
    exact ⟨h.1, by simp⟩
| (idx, t) :: rest, i, acc, h => by
    simp only [findNearest] at h
    split_ifs at h with h1 h2
    · obtain ⟨ha, hrest⟩ := findNearest_none_char rest i _ h
      simp at ha
    · simp [Prod.mk.injEq] at h
    · obtain ⟨ha, hrest⟩ := findNearest_none_char rest i acc h
      refine ⟨ha, ?_⟩
      intro e he
      rcases List.mem_cons.mp he with rfl | he'
      · omega
      · exact hrest e he'

/-- Every `known_times` entry records the index (counted from `i0`) of a step
whose raw start is known, with its value. -/
theorem knownTimes_mem : ∀ (raws : List (Option Int)) (i0 : Int) (e : Int × Int),
    e ∈ knownTimes i0 raws →
    ∃ p : Nat, e.1 = i0 + (p : Int) ∧ raws.get? p = some (some e.2)
| [], _, e, h => absurd h (List.not_mem_nil _)
| some t :: rest, i0, e, h => by
    rcases List.mem_cons.mp h with rfl | h'
    · exact ⟨0, by simp, by simp⟩
    · obtain ⟨p, hp1, hp2⟩ := knownTimes_mem rest (i0 + 1) e h'
      exact ⟨p + 1, by push_cast; omega, by simpa using hp2⟩
| none :: rest, i0, e, h => by
    obtain ⟨p, hp1, hp2⟩ := knownTimes_mem rest (i0 + 1) e h
    exact ⟨p + 1, by push_cast; omega, by simpa using hp2⟩

/-- Pass 2 fills a step as soon as some known entry has a different index. -/
theorem fillRaw_isSome (vd n : Int) (known : List (Int × Int)) (i : Int) (r : Option Int)
    (h : ∃ e ∈ known, e.1 ≠ i) : (fillRaw vd n known i r).isSome := by
  cases r with
  | some t => rfl
  | none =>
      rw [fillRaw]
      rcases hfn : findNearest i known none with ⟨p, nx⟩
      cases p with
      | some pe =>
          obtain ⟨pIdx, pTime⟩ := pe
          cases nx with
          | some ne => obtain ⟨nIdx, nTime⟩ := ne; simp
          | none => simp
      | none =>
          cases nx with
          | some ne => obtain ⟨nIdx, nTime⟩ := ne; simp
          | none =>
              obtain ⟨_, hall⟩ := findNearest_none_char known i none hfn
              obtain ⟨e, he, hne⟩ := h
              exact absurd (hall e he) hne

/-- All entries produced by pass 2 are filled, provided every unknown index
has a known entry elsewhere. -/
theorem pass2Fill_isSome (vd n : Int) (known : List (Int × Int)) :
    ∀ (raws : List (Option Int)) (i0 : Int),
      (∀ p : Nat, raws.get? p = some none → ∃ e ∈ known, e.1 ≠ i0 + (p : Int)) →
      ∀ o ∈ pass2Fill vd n known i0 raws, o.isSome
| [], _, _ => by simp [pass2Fill]
| r :: rest, i0, h => by
    intro o ho
    rcases List.mem_cons.mp ho with rfl | ho'
    · cases r with
      | some t => rfl
      | none =>
          refine fillRaw_isSome vd n known i0 none ?_
          obtain ⟨e, he, hne⟩ := h 0 (by simp)
          exact ⟨e, he, by simpa using hne⟩
    · refine pass2Fill_isSome vd n known rest (i0 + 1) ?_ o ho'
      intro p hp
      obtain ⟨e, he, hne⟩ := h (p + 1) (by simpa using hp)
      exact ⟨e, he, by push_cast at hne ⊢; omega⟩

/-- The even-distribution branch fills every step. -/
theorem evenlyFill_isSome (sd : Int) : ∀ (i : Int) (raws : List (Option Int)),
    ∀ o ∈ evenlyFill sd i raws, o.isSome
| _, [] => by simp [evenlyFill]
| i, r :: rest => by
    intro o ho
    rcases List.mem_cons.mp ho with rfl | ho'
    · rfl
    · exact evenlyFill_isSome sd (i + 1) rest o ho'

/-- The even-distribution branch keeps the list length. -/
theorem evenlyFill_length (sd : Int) : ∀ (i : Int) (raws : List (Option Int)),
    (evenlyFill sd i raws).length = raws.length
| _, [] => rfl
| i, r :: rest => by simp [evenlyFill, evenlyFill_length sd (i + 1) rest]

/-- Pass 2 keeps the list length. -/
theorem pass2Fill_length (vd n : Int) (known : List (Int × Int)) :
    ∀ (i : Int) (raws : List (Option Int)),
      (pass2Fill vd n known i raws).length = raws.length
| _, [] => rfl
| i, r :: rest => by simp [pass2Fill, pass2Fill_length vd n known (i + 1) rest]

/-- Totality and the pass-3 invariants of the whole Step Timer: on a
non-empty step list it never fails (no raw start is left `None` where the
code would crash), the predicted windows are sequentially ordered, the last
window ends exactly at `videoDuration`, and each window is at least 5 seconds
long unless the `videoDuration` cap forces the last one shorter. -/
theorem predict_step_times_spec (instructions : List Instruction) (vd : Int)
    (hne : instructions ≠ []) :
    ∃ out, predict_step_times instructions vd = some out ∧
      List.Chain' (fun a b => a.endSeconds ≤ b.startSeconds) out ∧
      (∃ t, out.getLast? = some t ∧ t.endSeconds = vd) ∧
      (∀ t ∈ out, 5 ≤ t.endSeconds - t.startSeconds ∨
        (t.endSeconds = vd ∧ vd - t.startSeconds < 5)) := by
  have hall2 : ∀ o ∈ (if (knownTimes 0 (instructions.map rawStartOf)).isEmpty
      then evenlyFill (vd.fdiv (max (instructions.length : Int) 1)) 0 (instructions.map rawStartOf)
      else pass2Fill vd (instructions.length : Int) (knownTimes 0 (instructions.map rawStartOf))
        0 (instructions.map rawStartOf)), o.isSome := by
    split_ifs with hk
    · exact evenlyFill_isSome _ _ _
    · refine pass2Fill_isSome _ _ _ _ _ ?_
      intro p hp
      have hkne : knownTimes 0 (instructions.map rawStartOf) ≠ [] := by
        simpa [List.isEmpty_iff] using hk
      obtain ⟨e, he⟩ := List.exists_mem_of_ne_nil _ hkne
      by_cases hei : e.1 = (0 : Int) + (p : Int)
      · obtain ⟨q, hq1, hq2⟩ := knownTimes_mem (instructions.map rawStartOf) 0 e he
        have hqp : (q : Int) = (p : Int) := by omega
        have hq : q = p := by exact_mod_cast hqp
        subst hq
        rw [hp] at hq2
        simp at hq2
      · exact ⟨e, he, hei⟩
  have hlen2 : (if (knownTimes 0 (instructions.map rawStartOf)).isEmpty
      then evenlyFill (vd.fdiv (max (instructions.length : Int) 1)) 0 (instructions.map rawStartOf)
      else pass2Fill vd (instructions.length : Int) (knownTimes 0 (instructions.map rawStartOf))
        0 (instructions.map rawStartOf)).length = instructions.length := by
    split_ifs with hk
    · rw [evenlyFill_length, List.length_map]
    · rw [pass2Fill_length, List.length_map]
  have hzlen : ((if (knownTimes 0 (instructions.map rawStartOf)).isEmpty
      then evenlyFill (vd.fdiv (max (instructions.length : Int) 1)) 0 (instructions.map rawStartOf)
      else pass2Fill vd (instructions.length : Int) (knownTimes 0 (instructions.map rawStartOf))
        0 (instructions.map rawStartOf)).zip instructions).length = instructions.length := by
    rw [List.length_zip, hlen2, min_self]
  have hperm := List.perm_insertionSort (fun a b : Option Int × Instruction => a.2.step ≤ b.2.step)
    ((if (knownTimes 0 (instructions.map rawStartOf)).isEmpty
      then evenlyFill (vd.fdiv (max (instructions.length : Int) 1)) 0 (instructions.map rawStartOf)
      else pass2Fill vd (instructions.length : Int) (knownTimes 0 (instructions.map rawStartOf))
        0 (instructions.map rawStartOf)).zip instructions)
  have hsall : ∀ pr ∈ List.insertionSort (fun a b : Option Int × Instruction => a.2.step ≤ b.2.step)
      ((if (knownTimes 0 (instructions.map rawStartOf)).isEmpty
        then evenlyFill (vd.fdiv (max (instructions.length : Int) 1)) 0 (instructions.map rawStartOf)
        else pass2Fill vd (instructions.length : Int) (knownTimes 0 (instructions.map rawStartOf))
          0 (instructions.map rawStartOf)).zip instructions), pr.1.isSome := by
    intro pr hpr
    obtain ⟨a, b⟩ := pr
    have hmem := hperm.mem_iff.mp hpr
    exact hall2 a (List.of_mem_zip hmem).1
  obtain ⟨out, hout⟩ := pass3_isSome vd _ 0 hsall
  have hspec := pass3_spec vd _ 0 out hout
  have hdur := pass3_duration vd _ 0 out hout
  have hsne : List.insertionSort (fun a b : Option Int × Instruction => a.2.step ≤ b.2.step)
      ((if (knownTimes 0 (instructions.map rawStartOf)).isEmpty
        then evenlyFill (vd.fdiv (max (instructions.length : Int) 1)) 0 (instructions.map rawStartOf)
        else pass2Fill vd (instructions.length : Int) (knownTimes 0 (instructions.map rawStartOf))
          0 (instructions.map rawStartOf)).zip instructions) ≠ [] := by
    intro hnil
    have := hperm.length_eq
    rw [hnil, hzlen] at this
    exact hne (List.length_eq_zero.mp this.symm)
  exact ⟨out, hout, hspec.2.2.1, hspec.2.2.2 hsne, hdur⟩

/-! ## Claim C2 — ordering of predicted step windows -/

/-- **C2**.  On any non-empty ordered step list with positive `videoDuration`,
the Step Timer succeeds, consecutive predicted windows satisfy
`predictedTime[i+1].start >= predictedTime[i].end`, and the last window ends
exactly at `videoDuration`. -/
theorem c2_step_windows_ordered (instructions : List Instruction) (video_duration : Int)
    (hne : instructions ≠ []) (_hvd : 0 < video_duration) :
    ∃ out, predict_step_times instructions video_duration = some out ∧
      List.Chain' (fun a b => a.endSeconds ≤ b.startSeconds) out ∧
      ∃ t, out.getLast? = some t ∧ t.endSeconds = video_duration := by
  obtain ⟨out, h1, h2, h3, _⟩ := predict_step_times_spec instructions video_duration hne
  exact ⟨out, h1, h2, h3⟩

/-- **C2** (witness): a concrete two-step run. -/
theorem c2_witness :
    ∃ out, predict_step_times [⟨1, [], []⟩, ⟨2, [], []⟩] 90 = some out ∧
      List.Chain' (fun a b => a.endSeconds ≤ b.startSeconds) out ∧
      ∃ t, out.getLast? = some t ∧ t.endSeconds = 90 :=
  c2_step_windows_ordered [⟨1, [], []⟩, ⟨2, [], []⟩] 90 (by decide) (by decide)

/-! ## Claim C3 — the 5-second minimum duration -/

/-- **C3**.  On any non-empty step list the Step Timer succeeds and every
predicted window is at least `MIN_STEP_DURATION = 5` seconds long, except
when the `videoDuration` cap forces a shorter window
(`end = videoDuration < start + 5`). -/
theorem c3_minimum_duration (instructions : List Instruction) (video_duration : Int)
    (hne : instructions ≠ []) :
    ∃ out, predict_step_times instructions video_duration = some out ∧
      ∀ t ∈ out, 5 ≤ t.endSeconds - t.startSeconds ∨
        (t.endSeconds = video_duration ∧ video_duration - t.startSeconds < 5) := by
  obtain ⟨out, h1, _, _, h4⟩ := predict_step_times_spec instructions video_duration hne
  exact ⟨out, h1, h4⟩

/-- **C3** (witness): a concrete one-step run. -/
theorem c3_witness :
    ∃ out, predict_step_times [⟨1, ["sear"], [⟨"sear", 10⟩]⟩] 90 = some out ∧
      ∀ t ∈ out, 5 ≤ t.endSeconds - t.startSeconds ∨
        (t.endSeconds = 90 ∧ 90 - t.startSeconds < 5) :=
  c3_minimum_duration [⟨1, ["sear"], [⟨"sear", 10⟩]⟩] 90 (by decide)

/-! ## Claim C8 — behaviour on non-positive videoDuration -/

/-- **C8** (counterexample).  With `videoDuration = 0` and two steps without
references, the predicted windows are `{0, 5}` and `{5, 0}` — they do *not*
all degenerate to `{0, 0}`: the non-last step still receives the 5-second
minimum duration, and the last window is even inverted. -/
theorem c8_zero_duration_not_all_zero :
    ∃ out, predict_step_times [⟨1, [], []⟩, ⟨2, [], []⟩] 0 = some out ∧
      ∃ t ∈ out, ¬ (t.startSeconds = 0 ∧ t.endSeconds = 0) := by
  refine ⟨[⟨⟨1, [], []⟩, 0, 5⟩, ⟨⟨2, [], []⟩, 5, 0⟩], by decide, ?_⟩
  exact ⟨⟨⟨1, [], []⟩, 0, 5⟩, by decide, by decide⟩

/-- **C8** (amended).  For every non-empty step list with
`videoDuration <= 0` the Step Timer raises no error (it always returns a
result), and the last step's predicted end equals `videoDuration`; but the
windows do not in general degenerate to `{0, 0}` (see
`c8_zero_duration_not_all_zero`). -/
theorem c8_nonpositive_duration_no_error (instructions : List Instruction)
    (video_duration : Int) (hne : instructions ≠ []) (_hvd : video_duration ≤ 0) :
    ∃ out, predict_step_times instructions video_duration = some out ∧
      ∃ t, out.getLast? = some t ∧ t.endSeconds = video_duration := by
  obtain ⟨out, h1, _, h3, _⟩ := predict_step_times_spec instructions video_duration hne
  exact ⟨out, h1, h3⟩

/-- **C8** (witness): a concrete single-step run at `videoDuration = 0`. -/
theorem c8_witness :
    ∃ out, predict_step_times [⟨1, [], []⟩] 0 = some out ∧
      ∃ t, out.getLast? = some t ∧ t.endSeconds = 0 :=
  c8_nonpositive_duration_no_error [⟨1, [], []⟩] 0 (by decide) (by decide)
